import Mathlib

/-!
Verification of the auto_blog_script repository.

Shallow Lean embedding of:
 * the selection / retry loop of `main()` in `src/auto_blog/main.py`
   (lines 311-356),
 * the candidate pre-filter of `main()` (lines 288-301) and the
   commit-then-mark tail of `main()` (lines 358-369) together with the
   processed-URL tracking sheet (`sheets_handler.add_processed_url`),
 * the `PostHistory` ledger of `src/auto_blog/utils/post_history.py`,
 * `filter_unprocessed_items` of
   `src/auto_blog/webhook_handler/wehbook_handler.py`.
-/

namespace AutoBlog

/-- Outcome of one `process_rss_item` attempt in `main()`:
`published` models a successful, relevant generation (a truthy return value),
`notRelevant` models a `None` return (the `relevant_to_niche` check failed),
`failed` models an `AutoBlogError` raised by the attempt.  A candidate list
is abstracted by the list of outcomes its items would produce, since the
loop branches only on the outcome of each attempt. -/
inductive Outcome where
  | published
  | notRelevant
  | failed
  deriving DecidableEq

/-- Constant `max_retries = 2` set in `main()` (main.py line 321). -/
def max_retries : Nat := 2

/-- Inner retry loop of `main()` (main.py lines 325-356):
`while not success and retry_count < max_retries`, where each iteration
first breaks when `current_item_idx >= len(unprocessed_items)`, otherwise
takes `unprocessed_items[current_item_idx]`, increments the index, attempts
the item, and on a non-published outcome increments `retry_count`.
Returns the updated candidate index and the final `success` flag. -/
def innerLoop (items : List Outcome) (idx retry : Nat) : Nat × Bool :=
  if retry < max_retries then
    if h : idx < items.length then
      match items[idx] with
      | .published => (idx + 1, true)
      | .notRelevant => innerLoop items (idx + 1) (retry + 1)
      | .failed => innerLoop items (idx + 1) (retry + 1)
    else
      (idx, false)
  else
    (idx, false)
termination_by max_retries - retry

/-- Outer loop of `main()` (main.py line 320):
`while successfully_processed < num_posts and current_item_idx <
len(unprocessed_items)`, which runs the inner retry loop with a fresh
`retry_count = 0` and `success = False` each time, and increments
`successfully_processed` exactly when the inner loop succeeded.
Returns the final candidate index and the number of published posts
(the size of the accumulated batch `processed_urls`/`created_post_paths`).
Termination is by the candidate index, which strictly increases on every
entry into the inner loop; the proof inlines the monotonicity and progress
of `innerLoop`. -/
def outerLoop (items : List Outcome) (idx done num_posts : Nat) : Nat × Nat :=
  if done < num_posts ∧ idx < items.length then
    match h : innerLoop items idx 0 with
    | (idx', true) => outerLoop items idx' (done + 1) num_posts
    | (idx', false) => outerLoop items idx' done num_posts
  else
    (idx, done)
termination_by items.length - idx
decreasing_by
  all_goals
  · have mono : ∀ fuel retry i, max_retries - retry ≤ fuel →
        i ≤ (innerLoop items i retry).1 := by
      intro fuel
      induction fuel with
      | zero =>
          intro retry i hf
          have hr : ¬ retry < max_retries := by omega
          rw [innerLoop]
          simp [hr]
      | succ n ih =>
          intro retry i hf
          rw [innerLoop]
          by_cases hr : retry < max_retries
          · simp only [if_pos hr]
            by_cases hi : i < items.length
            · simp only [dif_pos hi]
              cases items[i] with
              | published => simp
              | notRelevant =>
                  simp only
                  have := ih (retry + 1) (i + 1) (by omega)
                  omega
              | failed =>
                  simp only
                  have := ih (retry + 1) (i + 1) (by omega)
                  omega
            · simp [hi]
          · simp [hr]
    have hg : idx < items.length := by omega
    have hprog : idx < (innerLoop items idx 0).1 := by
      rw [innerLoop]
      have h2 : (0 : Nat) < max_retries := by decide
      simp only [if_pos h2, dif_pos hg]
      cases items[idx] with
      | published => simp
      | notRelevant =>
          simp only
          have := mono max_retries (0 + 1) (idx + 1) (by omega)
          omega
      | failed =>
          simp only
          have := mono max_retries (0 + 1) (idx + 1) (by omega)
          omega
    rw [h] at hprog
    simp at hprog ⊢
    omega

/-- Entry into the selection loop of `main()` (main.py lines 311-320):
`num_posts = min(len(unprocessed_items), posts_per_day)`, then the outer
loop starts at `current_item_idx = 0`, `successfully_processed = 0`.
Returns the final candidate index (candidates consumed) and the number of
published posts in the run batch. -/
def runSelection (items : List Outcome) (posts_per_day : Nat) : Nat × Nat :=
  outerLoop items 0 0 (min items.length posts_per_day)

/-- The `PostHistory.history` dictionary: URL keys mapped to date strings,
modelled as an association list with unique keys kept in insertion order,
matching a Python dict. -/
abbrev Ledger := List (String × String)

/-- Python dict assignment `self.history[url] = date` (post_history.py
line 89): an existing key has its value updated in place, a new key is
appended at the end. -/
def dictInsert (h : Ledger) (url date : String) : Ledger :=
  if h.any (fun p => p.1 == url) then
    h.map (fun p => if p.1 == url then (url, date) else p)
  else
    h ++ [(url, date)]

/-- Membership test `url in self.history`
(`PostHistory.is_url_processed`, post_history.py line 114). -/
def is_url_processed (h : Ledger) (url : String) : Bool :=
  h.any (fun p => p.1 == url)

/-- State of the history file as seen by `PostHistory._load_history`
(post_history.py lines 33-52): the file may be missing, may fail to read
or to parse as JSON (both land in the `except` clause), or may hold a
valid ledger. -/
inductive FileState where
  | missing
  | corrupt
  | valid (contents : Ledger)
  deriving DecidableEq

/-- Embedding of `PostHistory._load_history` (post_history.py lines 33-52).
When the file is missing, `os.makedirs(..., exist_ok=True)` at line 42 runs
outside the `try`/`except` and may itself fail (permission denied, the
dirname existing as a regular file, or an empty dirname); `mkdirOk` models
whether that call succeeds, and its exception propagates to the caller,
modelled by `Except.error`.  When the file exists, a read or JSON parse
error is caught by the `except` clause and yields an empty dict, and a
valid file yields its contents; `mkdirOk` is irrelevant on those branches
since `os.makedirs` is not reached. -/
def loadHistory (fs : FileState) (mkdirOk : Bool) : Except Unit Ledger :=
  match fs with
  | .missing => if mkdirOk then .ok [] else .error ()
  | .corrupt => .ok []
  | .valid contents => .ok contents

/-- In-memory plus persisted state of a `PostHistory` object. -/
structure PHState where
  history : Ledger
  file : FileState
  deriving DecidableEq

/-- Embedding of `PostHistory._save_history` (post_history.py lines 54-61):
the write is attempted inside `try`; on success the file holds a snapshot
of the in-memory dict, and any exception is caught and logged, leaving the
previous file state.  `writeOk` models whether the underlying I/O
succeeds.  In either case the function returns (never raises). -/
def saveHistory (st : PHState) (writeOk : Bool) : PHState :=
  if writeOk then { st with file := .valid st.history } else st

/-- Embedding of `PostHistory.add_processed_url` (post_history.py lines
82-90): first the in-memory dict is updated with the current date, then
`_save_history` is attempted. -/
def add_processed_url (st : PHState) (url now : String) (writeOk : Bool) : PHState :=
  saveHistory { st with history := dictInsert st.history url now } writeOk

/-- Lexicographic comparison of two character lists by code point,
the semantics of Python string `<=` used by `date >= cutoff_date`. -/
def lexLe : List Char → List Char → Bool
  | [], _ => true
  | _ :: _, [] => false
  | a :: as, b :: bs => a.toNat < b.toNat || (a == b && lexLe as bs)

/-- Python string comparison `a <= b` on whole strings. -/
def strLe (a b : String) : Bool := lexLe a.toList b.toList

/-- Embedding of `PostHistory.clean_old_entries` (post_history.py lines
63-80): an empty dict returns immediately; otherwise the dict is rebuilt
keeping exactly the entries with `date >= cutoff_date`, where
`cutoff_date` is `(now - max_history_days).strftime('%Y-%m-%d')` and the
comparison is Python string comparison (for fixed-width ISO dates this
coincides with chronological order).  Persistence of the pruned dict is
orthogonal to which entries survive and is not modelled here. -/
def clean_old_entries (h : Ledger) (cutoff : String) : Ledger :=
  if h.isEmpty then h
  else h.filter (fun p => strLe cutoff p.2)

/-- An RSS feed item, restricted to the fields the filters inspect:
`item.link`, `item.description` and `item.image_url` (which is optional). -/
structure RSSItem where
  link : String
  description : String
  image_url : Option String
  deriving DecidableEq

/-- Candidate pre-filter inside `main()` (main.py lines 293-296):
`unprocessed_items = [item for item in all_items if item.link not in
processed_urls]`, where `processed_urls` is the list returned by
`sheets_handler.get_processed_urls()` — the tracking sheet, not the
`PostHistory` ledger. -/
def unprocessedItems (all_items : List RSSItem) (processed_urls : List String) : List RSSItem :=
  all_items.filter (fun item => !(processed_urls.contains item.link))

/-- ASCII lowering of one character, the effect of Python `str.lower()`
on the ASCII range relevant to the "sale" check. -/
def lowerChar (c : Char) : Char :=
  if 65 ≤ c.toNat && c.toNat ≤ 90 then Char.ofNat (c.toNat + 32) else c

/-- Check that `sub` occurs at the head of `s` (Python `str.startswith`). -/
def subAt : List Char → List Char → Bool
  | [], _ => true
  | _ :: _, [] => false
  | a :: as, b :: bs => a == b && subAt as bs

/-- Check that `sub` occurs somewhere in the list (Python `sub in s`). -/
def subSearch (sub : List Char) : List Char → Bool
  | [] => sub.isEmpty
  | c :: t => subAt sub (c :: t) || subSearch sub t

/-- Python `'sale' in s.lower()` (wehbook_handler.py line 76). -/
def hasSale (s : String) : Bool :=
  subSearch "sale".toList (s.toList.map lowerChar)

/-- Python `s.startswith('http')` (wehbook_handler.py line 78). -/
def startsWithHttp (s : String) : Bool :=
  subAt "http".toList s.toList

/-- Python `item.image_url is not None and item.image_url.startswith('http')`
(wehbook_handler.py line 78). -/
def validImage (item : RSSItem) : Bool :=
  match item.image_url with
  | none => false
  | some u => startsWithHttp u

/-- Embedding of `filter_unprocessed_items` (wehbook_handler.py lines
58-83).  When `processed_urls` is empty the function logs a warning and
returns `all_items` unchanged.  Otherwise it keeps the items that are not
in `processed_urls`, whose link and description avoid the substring
"sale" case-insensitively, and whose `image_url` is present and starts
with "http"; the surviving list is then shuffled by `random.shuffle`,
modelled by an arbitrary reordering function `shuffle`. -/
def filter_unprocessed_items (shuffle : List RSSItem → List RSSItem)
    (all_items : List RSSItem) (processed_urls : List String) : List RSSItem :=
  if processed_urls.isEmpty then all_items
  else
    shuffle (all_items.filter (fun item =>
      !(processed_urls.any (fun url => item.link == url)) &&
      (!(hasSale item.link) && !(hasSale item.description)) &&
      validImage item))

/-- Tail of `main()` (main.py lines 358-369): when the batch
`processed_urls` is nonempty, `commit_and_push_changes` is invoked; if it
fails the function returns at once, otherwise every batch URL is appended
to the tracking sheet by `sheets_handler.add_processed_url` (which adds
one row per URL).  `commitOk` models the boolean result of the commit,
`sheet` the column of URLs already in the tracking sheet. -/
def finishRun (processed_urls : List String) (commitOk : Bool)
    (sheet : List String) : List String :=
  if processed_urls.isEmpty then sheet
  else if commitOk then sheet ++ processed_urls
  else sheet

/-- Fuel-indexed characterisation of the inner retry loop: the index never
decreases, stays within the list, advances by at most the remaining retry
budget, the published-count of the remaining suffix drops by one exactly
when the loop reports success, and the index strictly increases whenever
an attempt is possible. -/
theorem innerLoop_spec_aux (items : List Outcome) :
    ∀ (fuel retry idx : Nat), max_retries - retry ≤ fuel → idx ≤ items.length →
    idx ≤ (innerLoop items idx retry).1 ∧
    (innerLoop items idx retry).1 ≤ items.length ∧
    (innerLoop items idx retry).1 ≤ idx + (max_retries - retry) ∧
    (items.drop idx).count .published =
      (if (innerLoop items idx retry).2 then 1 else 0) +
        ((items.drop (innerLoop items idx retry).1).count .published) ∧
    (retry < max_retries → idx < items.length → idx < (innerLoop items idx retry).1) := by
  intro fuel
  induction fuel with
  | zero =>
      intro retry idx hfuel hidx
      have hr : ¬ retry < max_retries := by omega
      rw [innerLoop]
      simp [hr]
      omega
  | succ n ih =>
      intro retry idx hfuel hidx
      by_cases hr : retry < max_retries
      · rw [innerLoop]
        simp only [if_pos hr]
        by_cases hi : idx < items.length
        · simp only [dif_pos hi]
          have hdrop : items.drop idx = items[idx] :: items.drop (idx + 1) :=
            List.drop_eq_getElem_cons hi
          cases hx : items[idx] with
          | published =>
              simp only [hx]
              refine ⟨by omega, by omega, by omega, ?_, fun _ _ => by omega⟩
              rw [hdrop, hx]
              simp [List.count_cons]
              omega
          | notRelevant =>
              simp only [hx]
              have := ih (retry + 1) (idx + 1) (by omega) (by omega)
              refine ⟨by omega, by omega, by omega, ?_, fun _ _ => by omega⟩
              rw [hdrop, hx]
              simp only [List.count_cons]
              have hc := this.2.2.2.1
              simp only [hc]
              simp
          | failed =>
              simp only [hx]
              have := ih (retry + 1) (idx + 1) (by omega) (by omega)
              refine ⟨by omega, by omega, by omega, ?_, fun _ _ => by omega⟩
              rw [hdrop, hx]
              simp only [List.count_cons]
              have hc := this.2.2.2.1
              simp only [hc]
              simp
        · simp only [dif_neg hi]
          refine ⟨le_refl _, by omega, by omega, by simp, fun _ h => absurd h hi⟩
      · rw [innerLoop]
        simp [hr]
        omega

/-- Instantiation of `innerLoop_spec_aux` with exact fuel. -/
theorem innerLoop_spec (items : List Outcome) (idx retry : Nat)
    (hidx : idx ≤ items.length) :
    idx ≤ (innerLoop items idx retry).1 ∧
    (innerLoop items idx retry).1 ≤ items.length ∧
    (innerLoop items idx retry).1 ≤ idx + (max_retries - retry) ∧
    (items.drop idx).count .published =
      (if (innerLoop items idx retry).2 then 1 else 0) +
        ((items.drop (innerLoop items idx retry).1).count .published) ∧
    (retry < max_retries → idx < items.length → idx < (innerLoop items idx retry).1) :=
  innerLoop_spec_aux items (max_retries - retry) retry idx (le_refl _) hidx

/-- Fuel-indexed invariant of the outer loop: the published count on exit
is `min N (done + published in the remaining suffix)`, and the candidate
index is monotone and bounded by the list length. -/
theorem outerLoop_spec_aux (items : List Outcome) :
    ∀ (fuel idx done N : Nat), items.length - idx ≤ fuel → idx ≤ items.length → done ≤ N →
    (outerLoop items idx done N).2 = min N (done + (items.drop idx).count .published) ∧
    idx ≤ (outerLoop items idx done N).1 ∧
    (outerLoop items idx done N).1 ≤ items.length := by
  intro fuel
  induction fuel with
  | zero =>
      intro idx done N hfuel hidx hdone
      have hieq : idx = items.length := by omega
      have hg : ¬ (done < N ∧ idx < items.length) := by omega
      rw [outerLoop]
      simp only [if_neg hg]
      subst hieq
      simp
      omega
  | succ n ih =>
      intro idx done N hfuel hidx hdone
      by_cases hg : done < N ∧ idx < items.length
      · rw [outerLoop]
        simp only [if_pos hg]
        split
        next idx' heq =>
          have hspec := innerLoop_spec items idx 0 hidx
          rw [heq] at hspec
          obtain ⟨h1, h2, h3, h4, h5⟩ := hspec
          have hprog : idx < idx' := h5 (by simp [max_retries]) hg.2
          simp at h4
          have := ih idx' (done + 1) N (by omega) h2 (by omega)
          refine ⟨?_, by omega, this.2.2⟩
          rw [this.1]
          omega
        next idx' heq =>
          have hspec := innerLoop_spec items idx 0 hidx
          rw [heq] at hspec
          obtain ⟨h1, h2, h3, h4, h5⟩ := hspec
          have hprog : idx < idx' := h5 (by simp [max_retries]) hg.2
          simp at h4
          have := ih idx' done N (by omega) h2 hdone
          refine ⟨?_, by omega, this.2.2⟩
          rw [this.1]
          omega
      · rw [outerLoop]
        simp only [if_neg hg]
        rcases Nat.lt_or_ge done N with hlt | hge
        · have hieq : idx = items.length := by omega
          subst hieq
          simp
          omega
        · have hdeq : done = N := by omega
          subst hdeq
          simp
          omega

/-- When no remaining candidate publishes and the quota is unfilled, the
outer loop walks to the end of the candidate list. -/
theorem outerLoop_exhaust_aux (items : List Outcome) :
    ∀ (fuel idx done N : Nat), items.length - idx ≤ fuel → idx ≤ items.length →
    done < N → (items.drop idx).count .published = 0 →
    (outerLoop items idx done N).1 = items.length := by
  intro fuel
  induction fuel with
  | zero =>
      intro idx done N hfuel hidx hdone hcnt
      have hieq : idx = items.length := by omega
      have hg : ¬ (done < N ∧ idx < items.length) := by omega
      rw [outerLoop]
      simp only [if_neg hg]
      exact hieq
  | succ n ih =>
      intro idx done N hfuel hidx hdone hcnt
      by_cases hi : idx < items.length
      · have hg : done < N ∧ idx < items.length := ⟨hdone, hi⟩
        rw [outerLoop]
        simp only [if_pos hg]
        split
        next idx' heq =>
          have hspec := innerLoop_spec items idx 0 hidx
          rw [heq] at hspec
          obtain ⟨h1, h2, h3, h4, h5⟩ := hspec
          simp at h4
          omega
        next idx' heq =>
          have hspec := innerLoop_spec items idx 0 hidx
          rw [heq] at hspec
          obtain ⟨h1, h2, h3, h4, h5⟩ := hspec
          have hprog : idx < idx' := h5 (by simp [max_retries]) hi
          simp at h4
          exact ih idx' done N (by omega) h2 hdone (by omega)
      · have hieq : idx = items.length := by omega
        have hg : ¬ (done < N ∧ idx < items.length) := by omega
        rw [outerLoop]
        simp only [if_neg hg]
        exact hieq

/-- The run batch ends with exactly `min N (number of publishable
candidates)` published posts. -/
theorem runSelection_count (items : List Outcome) (N : Nat) :
    (runSelection items N).2 = min N (items.count .published) := by
  have h := outerLoop_spec_aux items items.length 0 0 (min items.length N)
    (by omega) (by omega) (by omega)
  have hc : items.count .published ≤ items.length := List.count_le_length _ _
  rw [runSelection, h.1]
  simp
  omega

/-- A run with a positive quota and no publishable candidate consumes the
whole candidate list. -/
theorem runSelection_exhaust (items : List Outcome) (N : Nat)
    (hcnt : items.count .published = 0) (hN : 0 < N) :
    (runSelection items N).1 = items.length := by
  rcases Nat.eq_zero_or_pos items.length with h0 | hpos
  · rw [runSelection, outerLoop]
    have hg : ¬ (0 < min items.length N ∧ 0 < items.length) := by omega
    simp only [if_neg hg]
    omega
  · exact outerLoop_exhaust_aux items items.length 0 0 (min items.length N)
      (by omega) (by omega) (by omega) (by simpa using hcnt)

/-- Counting entries with a given key equals counting the key in the key
column. -/
theorem countP_eq_count_keys (h : Ledger) (u : String) :
    h.countP (fun p => p.1 == u) = (h.map Prod.fst).count u := by
  induction h with
  | nil => simp
  | cons p t ih =>
      simp only [List.countP_cons, List.map_cons, List.count_cons, ih]

/-- Updating the value stored at a key leaves the key column unchanged. -/
theorem keys_update_map (h : Ledger) (u d : String) :
    (h.map (fun p => if p.1 == u then (u, d) else p)).map Prod.fst
      = h.map Prod.fst := by
  rw [List.map_map]
  apply List.map_congr_left
  intro p _
  by_cases hp : p.1 = u
  · simp [hp]
  · simp [hp]

/-- The dict membership test agrees with membership in the key column. -/
theorem any_key_iff (h : Ledger) (u : String) :
    h.any (fun p => p.1 == u) = true ↔ u ∈ h.map Prod.fst := by
  rw [List.any_eq_true]
  constructor
  · rintro ⟨p, hp, hpu⟩
    exact List.mem_map.2 ⟨p, hp, by simpa using hpu⟩
  · rintro hmem
    obtain ⟨p, hp, hpu⟩ := List.mem_map.1 hmem
    exact ⟨p, hp, by simpa using hpu⟩

/-- After a dict assignment the key is present. -/
theorem is_url_processed_dictInsert (h : Ledger) (u d : String) :
    is_url_processed (dictInsert h u d) u = true := by
  rw [dictInsert, is_url_processed]
  by_cases hmem : h.any (fun p => p.1 == u)
  · simp only [if_pos hmem]
    rw [List.any_eq_true] at hmem ⊢
    obtain ⟨p, hp, hpu⟩ := hmem
    exact ⟨(u, d), List.mem_map.2 ⟨p, hp, by simp [hpu]⟩, by simp⟩
  · simp only [if_neg hmem]
    simp

/-- A dict assignment leaves exactly one entry with the assigned key. -/
theorem countP_dictInsert (h : Ledger) (u d : String)
    (hnd : (h.map Prod.fst).Nodup) :
    (dictInsert h u d).countP (fun p => p.1 == u) = 1 := by
  rw [dictInsert]
  by_cases hany : h.any (fun p => p.1 == u) = true
  · simp only [if_pos hany]
    rw [countP_eq_count_keys, keys_update_map]
    have hmem : u ∈ h.map Prod.fst := (any_key_iff h u).1 hany
    have hle := List.nodup_iff_count_le_one.1 hnd u
    have hpos := List.count_pos_iff.2 hmem
    omega
  · simp only [if_neg hany]
    rw [countP_eq_count_keys, List.map_append]
    have hnotmem : u ∉ h.map Prod.fst := fun hc => hany ((any_key_iff h u).2 hc)
    rw [List.count_append]
    have h0 : (h.map Prod.fst).count u = 0 := List.count_eq_zero.2 hnotmem
    simp [h0]

/-- Dict assignment preserves uniqueness of keys. -/
theorem keys_dictInsert_nodup (h : Ledger) (u d : String)
    (hnd : (h.map Prod.fst).Nodup) :
    ((dictInsert h u d).map Prod.fst).Nodup := by
  rw [dictInsert]
  by_cases hany : h.any (fun p => p.1 == u) = true
  · simp only [if_pos hany]
    rw [keys_update_map]
    exact hnd
  · simp only [if_neg hany]
    rw [List.map_append]
    simp only [List.map_cons, List.map_nil]
    rw [List.nodup_append]
    refine ⟨hnd, by simp, ?_⟩
    intro x hx hx2
    rw [List.mem_singleton] at hx2
    subst hx2
    exact hany ((any_key_iff h x).2 hx)

/-- The in-memory dict after `add_processed_url` is the dict assignment,
whether or not the file write succeeds. -/
theorem add_processed_url_history (st : PHState) (u d : String) (w : Bool) :
    (add_processed_url st u d w).history = dictInsert st.history u d := by
  rw [add_processed_url, saveHistory]
  cases w <;> rfl

/-- String comparison is reflexive. -/
theorem strLe_refl (s : String) : strLe s s = true := by
  rw [strLe]
  induction s.toList with
  | nil => rfl
  | cons c t ih => simp [lexLe, ih]

/-- Membership in the pruned ledger. -/
theorem clean_mem (h : Ledger) (cutoff u d : String) :
    (u, d) ∈ clean_old_entries h cutoff ↔ ((u, d) ∈ h ∧ strLe cutoff d = true) := by
  rw [clean_old_entries]
  by_cases he : h.isEmpty
  · have hnil : h = [] := by
      cases h with
      | nil => rfl
      | cons a t => exact absurd he (by simp)
    subst hnil
    simp
  · simp only [if_neg he, List.mem_filter]

/-- C1: for every finite candidate list and daily quota N, the selection
loop of `main()` terminates (`runSelection` is a total function), the
accumulated batch holds exactly `min N (number of candidates whose
generation succeeds and is relevant)` published posts and never more than
N, the candidate index strictly increases on every possible attempt of the
inner loop, and the outer loop never decreases (never resets) the
candidate index. -/
theorem selection_loop_quota (items : List Outcome) (N : Nat) :
    (runSelection items N).2 = min N (items.count .published) ∧
    (runSelection items N).2 ≤ N ∧
    (∀ idx retry, retry < max_retries → idx < items.length →
      idx < (innerLoop items idx retry).1) ∧
    (∀ idx done M, idx ≤ items.length → idx ≤ (outerLoop items idx done M).1) := by
  refine ⟨runSelection_count items N, ?_, ?_, ?_⟩
  · rw [runSelection_count items N]
    exact Nat.min_le_left _ _
  · intro idx retry hr hi
    exact (innerLoop_spec items idx retry (le_of_lt hi)).2.2.2.2 hr hi
  · intro idx done M hidx
    by_cases hg : done < M ∧ idx < items.length
    · exact (outerLoop_spec_aux items (items.length - idx) idx done M
        (le_refl _) hidx (le_of_lt hg.1)).2.1
    · rw [outerLoop]
      simp only [if_neg hg]
      exact le_refl idx

/-- Witness for C1 at a concrete input. -/
theorem selection_loop_quota_witness :
    (runSelection [Outcome.published] 1).2
        = min 1 ([Outcome.published].count Outcome.published) ∧
    0 < (innerLoop [Outcome.published] 0 0).1 := by
  have h := selection_loop_quota [Outcome.published] 1
  exact ⟨h.1, h.2.2.1 0 0 (by decide) (by decide)⟩

/-- C2 counterexample: with quota N = 1 and three candidates that are all
not relevant, the run consumes all 3 candidates, exceeding the claimed
bound of N * max_retries = 2 — the exhausted retry budget does not stop
the outer loop from starting a fresh inner loop. -/
theorem slot_budget_counterexample :
    (runSelection [Outcome.notRelevant, Outcome.notRelevant, Outcome.notRelevant] 1).1 = 3 ∧
    ¬ ((runSelection [Outcome.notRelevant, Outcome.notRelevant, Outcome.notRelevant] 1).1
        ≤ 1 * max_retries) := by
  have h := runSelection_exhaust [Outcome.notRelevant, Outcome.notRelevant, Outcome.notRelevant]
    1 (by decide) (by decide)
  simp at h
  refine ⟨h, ?_⟩
  rw [h]
  decide

/-- C2 amended: each single entry into the inner retry loop consumes at
most `max_retries - retry` further candidates (so at most R = 2 from a
fresh slot), but an abandoned slot is re-entered by the outer loop while
the quota is unfilled and candidates remain, so a run whose quota is never
filled consumes every candidate in the list — bounded by the list length,
not by N * R. -/
theorem slot_budget_amended (items : List Outcome) (idx retry N : Nat)
    (hidx : idx ≤ items.length) :
    (innerLoop items idx retry).1 ≤ idx + (max_retries - retry) ∧
    (runSelection items N).1 ≤ items.length ∧
    (items.count .published = 0 → 0 < N → (runSelection items N).1 = items.length) := by
  refine ⟨(innerLoop_spec items idx retry hidx).2.2.1, ?_, ?_⟩
  · exact (outerLoop_spec_aux items items.length 0 0 (min items.length N)
      (by omega) (by omega) (by omega)).2.2
  · intro hcnt hN
    exact runSelection_exhaust items N hcnt hN

/-- Witness for the amended C2 at a concrete input. -/
theorem slot_budget_amended_witness :
    (innerLoop [Outcome.notRelevant] 0 0).1 ≤ 0 + (max_retries - 0) ∧
    (runSelection [Outcome.notRelevant] 1).1 = [Outcome.notRelevant].length := by
  have h := slot_budget_amended [Outcome.notRelevant] 0 0 1 (by decide)
  exact ⟨h.1, h.2.2 (by decide) (by decide)⟩

/-- C3 counterexample: a URL recorded in the `PostHistory` ledger at run
start is still selected by the run when it is absent from the tracking
sheet — `main()` filters candidates against
`sheets_handler.get_processed_urls()` only and never consults
`is_url_processed`; here the ledger contains the URL, the sheet list is
empty, the item survives the candidate filter in position 0, and the
selection loop attempts and publishes it. -/
theorem ledger_not_consulted_counterexample :
    is_url_processed [("https://ex.com/a", "2026-10-01")] "https://ex.com/a" = true ∧
    unprocessedItems [RSSItem.mk "https://ex.com/a" "d" (some "https://i/a.png")] []
      = [RSSItem.mk "https://ex.com/a" "d" (some "https://i/a.png")] ∧
    (runSelection [Outcome.published] 1).2 = 1 := by
  refine ⟨by decide, by decide, ?_⟩
  have h := runSelection_count [Outcome.published] 1
  simpa using h

/-- C3 amended: the deduplication that `main()` actually performs is
against the tracking-sheet URL list: an item whose link is in that list
never survives the candidate filter, so the selection loop never selects
it; the `PostHistory` ledger, although loaded at run start, is not
consulted for candidate filtering. -/
theorem sheet_dedup_amended (all_items : List RSSItem) (sheet_urls : List String)
    (item : RSSItem) (hmem : item ∈ unprocessedItems all_items sheet_urls) :
    item.link ∉ sheet_urls := by
  rw [unprocessedItems, List.mem_filter] at hmem
  have hcond := hmem.2
  simp only [Bool.not_eq_true'] at hcond
  intro hctr
  rw [List.contains_eq_any_beq] at hcond
  have hany : sheet_urls.any (fun x => item.link == x) = true :=
    List.any_eq_true.2 ⟨item.link, hctr, by simp⟩
  rw [hcond] at hany
  exact Bool.false_ne_true hany

/-- Witness for the amended C3 at a concrete input. -/
theorem sheet_dedup_amended_witness :
    (RSSItem.mk "https://ex.com/a" "d" none).link ∉ ["https://ex.com/b"] :=
  sheet_dedup_amended [RSSItem.mk "https://ex.com/a" "d" none] ["https://ex.com/b"]
    (RSSItem.mk "https://ex.com/a" "d" none) (by decide)

/-- C4: in the tail of `main()`, batch URLs reach the processed-URL store
(the tracking sheet) only in the branch where `commit_and_push_changes`
returned success: a failed commit returns with the sheet unchanged, a
successful commit appends exactly the batch, and an empty batch touches
nothing. -/
theorem commit_before_mark (urls sheet : List String) :
    finishRun urls false sheet = sheet ∧
    (urls ≠ [] → finishRun urls true sheet = sheet ++ urls) ∧
    finishRun [] true sheet = sheet := by
  refine ⟨?_, ?_, rfl⟩
  · rw [finishRun]
    by_cases he : urls.isEmpty <;> simp [he]
  · intro hne
    rw [finishRun]
    have he : urls.isEmpty = false := by
      cases urls with
      | nil => exact absurd rfl hne
      | cons a t => rfl
    simp [he]

/-- Witness for C4 at a concrete input. -/
theorem commit_before_mark_witness :
    finishRun ["u"] false [] = [] ∧ finishRun ["u"] true [] = [] ++ ["u"] := by
  have h := commit_before_mark ["u"] []
  exact ⟨h.1, h.2.1 (by decide)⟩

/-- C5: `add_processed_url` is idempotent — marking the same URL twice
leaves exactly one entry for it in the ledger dict, and the URL tests as
processed after either the first or the second call. -/
theorem mark_processed_idempotent (st : PHState) (u d1 d2 : String) (w1 w2 : Bool)
    (hnd : (st.history.map Prod.fst).Nodup) :
    ((add_processed_url (add_processed_url st u d1 w1) u d2 w2).history.countP
        (fun p => p.1 == u)) = 1 ∧
    is_url_processed (add_processed_url st u d1 w1).history u = true ∧
    is_url_processed (add_processed_url (add_processed_url st u d1 w1) u d2 w2).history u
      = true := by
  have h1 := add_processed_url_history st u d1 w1
  have h2 := add_processed_url_history (add_processed_url st u d1 w1) u d2 w2
  rw [h2, h1]
  refine ⟨?_, ?_, ?_⟩
  · exact countP_dictInsert _ u d2 (keys_dictInsert_nodup st.history u d1 hnd)
  · exact is_url_processed_dictInsert st.history u d1
  · exact is_url_processed_dictInsert _ u d2

/-- Witness for C5 at a concrete input. -/
theorem mark_processed_idempotent_witness :
    ((add_processed_url (add_processed_url ⟨[], .missing⟩ "u" "2026-10-11" true)
        "u" "2026-10-12" true).history.countP (fun p => p.1 == "u")) = 1 ∧
    is_url_processed (add_processed_url ⟨[], .missing⟩ "u" "2026-10-11" true).history "u"
      = true ∧
    is_url_processed (add_processed_url (add_processed_url ⟨[], .missing⟩ "u" "2026-10-11" true)
        "u" "2026-10-12" true).history "u" = true :=
  mark_processed_idempotent ⟨[], .missing⟩ "u" "2026-10-11" "2026-10-12" true true (by decide)

/-- C6: pruning keeps a record exactly when it is in the original ledger
and its date compares greater-or-equal to the cutoff (so records strictly
older than the cutoff are removed, records exactly at the cutoff are
retained — the boundary is inclusive — and newer records are untouched),
and pruning the empty ledger is a no-op. -/
theorem prune_spec (h : Ledger) (cutoff u d : String) :
    ((u, d) ∈ clean_old_entries h cutoff ↔ ((u, d) ∈ h ∧ strLe cutoff d = true)) ∧
    ((u, cutoff) ∈ h → (u, cutoff) ∈ clean_old_entries h cutoff) ∧
    clean_old_entries [] cutoff = [] := by
  refine ⟨clean_mem h cutoff u d, ?_, rfl⟩
  intro hin
  exact (clean_mem h cutoff u cutoff).2 ⟨hin, strLe_refl cutoff⟩

/-- Witness for C6 at a concrete input: a record dated exactly at the
cutoff survives pruning. -/
theorem prune_spec_witness :
    ("u", "2025-07-14") ∈ clean_old_entries [("u", "2025-07-14")] "2025-07-14" :=
  (prune_spec [("u", "2025-07-14")] "2025-07-14" "u" "2025-07-14").2.1 (by decide)

/-- C7 counterexample: loading is not raise-free — on the missing-file
branch, `os.makedirs` (post_history.py line 42) sits outside the
`try`/`except`, so when directory creation fails the call raises to the
caller instead of returning an empty ledger. -/
theorem load_history_counterexample :
    loadHistory FileState.missing false = Except.error () ∧
    loadHistory FileState.missing false ≠ Except.ok ([] : Ledger) :=
  ⟨rfl, by simp [loadHistory]⟩

/-- C7 amended: a missing history file yields an empty ledger provided the
data-directory creation at post_history.py line 42 succeeds; a file whose
contents cannot be read or parsed as JSON yields an empty ledger (the
`except` clause absorbs the error, regardless of the environment); a valid
file yields its contents; but on the missing-file branch a failing
`os.makedirs` — which runs outside the `try`/`except` — propagates its
exception to the caller. -/
theorem load_history_amended (contents : Ledger) (mkdirOk : Bool) :
    loadHistory .missing true = .ok [] ∧
    loadHistory .corrupt mkdirOk = .ok [] ∧
    loadHistory (.valid contents) mkdirOk = .ok contents ∧
    loadHistory .missing false = .error () :=
  ⟨rfl, rfl, rfl, rfl⟩

/-- C8: after `add_processed_url` the URL tests as processed whether or
not the file write succeeded — the in-memory mark is applied before the
persist attempt and a persist failure is absorbed, leaving the in-memory
dict updated and the previous file state in place. -/
theorem mark_survives_save_failure (st : PHState) (u d : String) (writeOk : Bool) :
    is_url_processed (add_processed_url st u d writeOk).history u = true ∧
    (add_processed_url st u d false).history = dictInsert st.history u d ∧
    (add_processed_url st u d false).file = st.file := by
  refine ⟨?_, rfl, rfl⟩
  rw [add_processed_url_history]
  exact is_url_processed_dictInsert st.history u d

/-- C9 counterexample: with an empty processed-URL list,
`filter_unprocessed_items` returns the input unchanged, so an item whose
link contains "sale" is not excluded, refuting the universal claim. -/
theorem sale_filter_counterexample :
    filter_unprocessed_items id
        [RSSItem.mk "https://ex.com/sale/1" "d" (some "https://i/a.png")] []
      = [RSSItem.mk "https://ex.com/sale/1" "d" (some "https://i/a.png")] ∧
    hasSale (RSSItem.mk "https://ex.com/sale/1" "d" (some "https://i/a.png")).link = true :=
  ⟨rfl, by decide⟩

/-- C9 amended: provided the processed-URL list is nonempty,
`filter_unprocessed_items` excludes every item whose link or description
contains "sale" case-insensitively and every item whose image URL is
absent or does not start with "http", for any shuffle that only reorders
its input; with an empty processed-URL list the input is returned
unchanged and no exclusion happens. -/
theorem sale_filter_amended (shuffle : List RSSItem → List RSSItem)
    (hshuffle : ∀ (l : List RSSItem) (x : RSSItem), x ∈ shuffle l → x ∈ l)
    (all_items : List RSSItem) (processed_urls : List String)
    (hne : processed_urls ≠ [])
    (item : RSSItem)
    (hbad : hasSale item.link = true ∨ hasSale item.description = true ∨
      validImage item = false) :
    item ∉ filter_unprocessed_items shuffle all_items processed_urls := by
  intro hmem
  rw [filter_unprocessed_items] at hmem
  have hni : processed_urls.isEmpty = false := by
    cases processed_urls with
    | nil => exact absurd rfl hne
    | cons a t => rfl
  rw [hni] at hmem
  simp only [Bool.false_eq_true, if_false] at hmem
  have hfil := hshuffle _ _ hmem
  rw [List.mem_filter] at hfil
  have hcond := hfil.2
  simp only [Bool.and_eq_true, Bool.not_eq_true'] at hcond
  rcases hbad with hb | hb | hb
  · rw [hb] at hcond
    exact absurd hcond.1.2.1 (by decide)
  · rw [hb] at hcond
    exact absurd hcond.1.2.2 (by decide)
  · rw [hb] at hcond
    exact Bool.false_ne_true hcond.2

/-- Witness for the amended C9 at a concrete input. -/
theorem sale_filter_amended_witness :
    (RSSItem.mk "https://ex.com/sale/1" "d" (some "https://i/a.png")) ∉
      filter_unprocessed_items id
        [RSSItem.mk "https://ex.com/sale/1" "d" (some "https://i/a.png")]
        ["https://ex.com/other"] :=
  sale_filter_amended id (fun _ _ hx => hx)
    [RSSItem.mk "https://ex.com/sale/1" "d" (some "https://i/a.png")]
    ["https://ex.com/other"] (by decide)
    (RSSItem.mk "https://ex.com/sale/1" "d" (some "https://i/a.png"))
    (Or.inl (by decide))

/-- C10: calling `filter_unprocessed_items` with an empty processed-URL
list returns the input item list unchanged for every shuffle — the "sale"
check, the image-URL check and the shuffle are all skipped. -/
theorem empty_processed_urls_bypass (shuffle : List RSSItem → List RSSItem)
    (all_items : List RSSItem) :
    filter_unprocessed_items shuffle all_items [] = all_items := rfl

end AutoBlog
